/-
Verification of the review sampling and arrangement pipeline of
`mcp-steam-reviews` (`src/services/steam_service.py`, `src/models/review.py`,
`src/config/settings.py`).

Shallow embedding conventions:
* Python floats (`hours_played`, strata bounds, stratum shares) are modelled as
  exact rationals (`ℚ`); `float('inf')` becomes the absent upper bound
  (`Option ℚ` with `none`).
* `math.log` is the real natural logarithm `Real.log`; the derived attribute
  `SteamReview.weight` lives in `ℝ`.  Because `ℝ` carries no computable order,
  the comparison used by Python's `sorted(key=lambda r: r.weight, reverse=True)`
  is implemented by the executable test `weightLe` and proved extensionally
  equal to the real comparison (`weightLe_iff`).
* Python's stable `sorted(..., reverse=True)` is `List.insertionSort` with the
  reflexive "greater or equal key" relation, which places an element before the
  first element whose key is not larger - the same stable descending order.
* `int(x)` on the non-negative products `total_target * pct` is `Int.toNat ∘ Int.floor`.
* Python `in` / `list.remove` on frozen dataclasses compare by value; the model
  uses the derived decidable equality of `SteamReview`.
-/
import Mathlib

set_option maxHeartbeats 1000000
set_option maxRecDepth 8000
set_option exponentiation.threshold 1000

/-- Model of `SteamReview`, the frozen dataclass of `src/models/review.py`. -/
structure SteamReview where
  review_id : String
  text : String
  is_positive : Bool
  hours_played : ℚ
  votes_up : ℕ
  created_at : ℤ
  received_for_free : Bool
deriving DecidableEq

/-- Derived attribute `weight = hours_played * math.log(votes_up + 1)`
(`SteamReview.weight` in `src/models/review.py`). -/
noncomputable def SteamReview.weight (r : SteamReview) : ℝ :=
  (r.hours_played : ℝ) * Real.log ((r.votes_up : ℝ) + 1)

/-- Executable decision procedure for `(m1 : ℤ) * log n1 ≤ (m2 : ℤ) * log n2`
(for `1 ≤ n1`, `1 ≤ n2`), obtained by sign analysis and the equivalence
`k * log n ≤ k' * log n' ↔ n ^ k ≤ n' ^ k'` for positive factors. -/
def logWeightLe (m1 : ℤ) (n1 : ℕ) (m2 : ℤ) (n2 : ℕ) : Bool :=
  if m1 = 0 ∨ n1 ≤ 1 then decide (0 ≤ m2 ∨ n2 ≤ 1)
  else if m2 = 0 ∨ n2 ≤ 1 then decide (m1 < 0)
  else if m1 < 0 then decide (0 < m2 ∨ n2 ^ (-m2).toNat ≤ n1 ^ (-m1).toNat)
  else decide (0 < m2 ∧ n1 ^ m1.toNat ≤ n2 ^ m2.toNat)

/-- Executable comparison deciding `weight a ≤ weight b` exactly
(see `weightLe_iff`). -/
def weightLe (a b : SteamReview) : Bool :=
  logWeightLe (a.hours_played.num * (b.hours_played.den : ℤ)) (a.votes_up + 1)
    (b.hours_played.num * (a.hours_played.den : ℤ)) (b.votes_up + 1)

/-- The descending-weight relation used by
`sorted(key=lambda r: r.weight, reverse=True)`. -/
def wge (a b : SteamReview) : Prop := weightLe b a = true

instance wge.decidableRel : DecidableRel wge :=
  fun a b => inferInstanceAs (Decidable (weightLe b a = true))

/-- The descending-helpfulness relation used by
`sorted(..., key=lambda r: r.votes_up, reverse=True)` and by
`buffer.sort(key=lambda x: x.votes_up, reverse=True)`. -/
def votesGe (a b : SteamReview) : Prop := b.votes_up ≤ a.votes_up

instance votesGe.decidableRel : DecidableRel votesGe :=
  fun a b => inferInstanceAs (Decidable (b.votes_up ≤ a.votes_up))

/-- Stable descending sort by `weight`:
`sorted(reviews, key=lambda r: r.weight, reverse=True)`. -/
def sortByWeightDesc (l : List SteamReview) : List SteamReview :=
  List.insertionSort wge l

/-- Stable descending sort by `votes_up`:
`sorted(reviews, key=lambda r: r.votes_up, reverse=True)`. -/
def sortByVotesDesc (l : List SteamReview) : List SteamReview :=
  List.insertionSort votesGe l

/-- Constant `CONFIG.VETERAN_PLAYTIME_THRESHOLD` (`src/config/settings.py`). -/
def VETERAN_PLAYTIME_THRESHOLD : ℚ := 500

/-- Constant `CONFIG.TAIL_VETERANS_COUNT` (`src/config/settings.py`). -/
def TAIL_VETERANS_COUNT : ℕ := 5

/-- The list `vet_neg_candidates`: the weight-sorted negatives whose playtime meets the
veteran threshold. -/
def vetNegCandidates (neg_sorted : List SteamReview) : List SteamReview :=
  neg_sorted.filter (fun r => decide (VETERAN_PLAYTIME_THRESHOLD ≤ r.hours_played))

/-- The source line `most_helpful_neg = sorted(neg_sorted, key=lambda r: r.votes_up, reverse=True)[0]
if neg_sorted else None`.  `head?` of the sorted list is exactly the guarded `[0]`:
it is `none` precisely when `neg_sorted` is empty. -/
def mostHelpfulNeg (neg_sorted : List SteamReview) : Option SteamReview :=
  (sortByVotesDesc neg_sorted).head?

/-- The list `tail_negatives`: top veterans capped at `TAIL_VETERANS_COUNT`, with the most
helpful negative removed when present (Python removes the first value-equal
occurrence; `List.erase` does the same through `DecidableEq`). -/
def tailNegatives (neg_sorted : List SteamReview) : List SteamReview :=
  let vet := vetNegCandidates neg_sorted
  if vet = [] then []
  else
    let cnt := min TAIL_VETERANS_COUNT vet.length
    let t := vet.take cnt
    match mostHelpfulNeg neg_sorted with
    | some m => if m ∈ t then t.erase m else t
    | none => t

/-- The set `exclude_ids`: ids of `tail_negatives` plus the id of `most_helpful_neg`
when present (a set in the source; modelled as a list, only membership is used). -/
def excludeIds (neg_sorted : List SteamReview) : List String :=
  (tailNegatives neg_sorted).map (fun r => r.review_id)
    ++ (match mostHelpfulNeg neg_sorted with
        | some m => [m.review_id]
        | none => [])

/-- The list `main_neg = [r for r in neg_sorted if r.review_id not in exclude_ids]`. -/
def mainNegatives (neg_sorted : List SteamReview) : List SteamReview :=
  neg_sorted.filter (fun r => decide (¬ r.review_id ∈ excludeIds neg_sorted))

/-- The zip loop `for p, n in zip(main_pos, main_neg): append p; append n`. -/
def interleave : List SteamReview → List SteamReview → List SteamReview
  | p :: ps, n :: ns => p :: n :: interleave ps ns
  | _, _ => []

/-- The final `if most_helpful_neg: final_list.append(most_helpful_neg)`:
one element when the most helpful negative exists, nothing otherwise. -/
def anchorList (neg_sorted : List SteamReview) : List SteamReview :=
  match mostHelpfulNeg neg_sorted with
  | some m => [m]
  | none => []

/-- Function `sort_and_arrange_reviews` (`src/services/steam_service.py`, lines 169-220):
interleave the weight-sorted positives with the main negatives, append the
remainder of the longer list, then the tail veterans, then the most helpful
negative. -/
def sortAndArrangeReviews (pos_reviews neg_reviews : List SteamReview) :
    List SteamReview :=
  interleave (sortByWeightDesc pos_reviews)
      (mainNegatives (sortByWeightDesc neg_reviews))
    ++ (sortByWeightDesc pos_reviews).drop
        (mainNegatives (sortByWeightDesc neg_reviews)).length
    ++ (mainNegatives (sortByWeightDesc neg_reviews)).drop
        (sortByWeightDesc pos_reviews).length
    ++ tailNegatives (sortByWeightDesc neg_reviews)
    ++ anchorList (sortByWeightDesc neg_reviews)

/-- A sampling stratum: an entry of `CONFIG.STRATA`.  `max = none` models
`float('inf')` (no upper bound). -/
structure Stratum where
  name : String
  min : ℚ
  max : Option ℚ
  pct : ℚ
deriving DecidableEq

/-- The test `hours < bounds["max"]`, where an absent bound (`float('inf')`) admits
every value. -/
def hoursLtMax (h : ℚ) : Option ℚ → Prop
  | none => True
  | some x => h < x

instance hoursLtMax.decidable (h : ℚ) (m : Option ℚ) : Decidable (hoursLtMax h m) :=
  match m with
  | none => isTrue trivial
  | some x => inferInstanceAs (Decidable (h < x))

/-- The test `bounds["min"] <= r.hours_played < bounds["max"]`. -/
def inStratum (s : Stratum) (r : SteamReview) : Prop :=
  s.min ≤ r.hours_played ∧ hoursLtMax r.hours_played s.max

instance inStratum.decidable (s : Stratum) (r : SteamReview) :
    Decidable (inStratum s r) :=
  inferInstanceAs (Decidable (_ ∧ _))

/-- The index of the first stratum whose range contains the review's
`hours_played` (the `break` in the bucket-filling loop makes the first
match win), or `none` when no stratum matches. -/
def assignedIdx (strata : List Stratum) (r : SteamReview) : Option ℕ :=
  strata.findIdx? (fun s => decide (inStratum s r))

/-- Bucket `strata_buckets[name]` for the stratum at position `i`: the input reviews,
in order, whose first matching stratum is the one at `i`. -/
def bucket (strata : List Stratum) (reviews : List SteamReview) (i : ℕ) :
    List SteamReview :=
  reviews.filter (fun r => assignedIdx strata r == some i)

/-- Quota `strat_target = max(1, int(total_target * bounds["pct"]))`; the product is
non-negative, so Python's truncating `int` is the floor.  The floor of the
rational product `total_target * pct` is computed on numerator and denominator
so that the kernel can evaluate it (`Rat` multiplication is irreducible);
`stratTarget_eq_floor` below proves this equal to
`max 1 (Int.toNat ⌊(total_target : ℚ) * s.pct⌋)`. -/
def stratTarget (total_target : ℕ) (s : Stratum) : ℕ :=
  max 1 (((total_target : ℤ) * s.pct.num).toNat / s.pct.den)

/-- The selection loop of `_get_stratified_sample`: walk the strata in declared
order (`i` is the running bucket index) and append the first `strat_target`
entries of each bucket. -/
def segsFrom (strata : List Stratum) (reviews : List SteamReview)
    (total_target : ℕ) : ℕ → List Stratum → List SteamReview
  | _, [] => []
  | i, s :: rest =>
      (bucket strata reviews i).take (stratTarget total_target s)
        ++ segsFrom strata reviews total_target (i + 1) rest

/-- Function `_get_stratified_sample` over an arbitrary strata table. -/
def stratifiedSample (strata : List Stratum) (reviews : List SteamReview)
    (total_target : ℕ) : List SteamReview :=
  segsFrom strata reviews total_target 0 strata

/-- Table `CONFIG.STRATA` (`src/config/settings.py`): the shares `0.20`, `0.40`,
`0.30`, `0.10` are the exact rationals `1/5`, `2/5`, `3/10`, `1/10`, written
with `mkRat` so that the kernel can evaluate them. -/
def CONFIG_STRATA : List Stratum :=
  [⟨"Beginner", 2, some 20, mkRat 1 5⟩,
   ⟨"Intermediate", 20, some 100, mkRat 2 5⟩,
   ⟨"Veteran", 100, some 500, mkRat 3 10⟩,
   ⟨"Hardcore", 500, none, mkRat 1 10⟩]

/-- Function `_get_stratified_sample` (`src/services/steam_service.py`, lines 149-167). -/
def getStratifiedSample (reviews : List SteamReview) (total_target : ℕ) :
    List SteamReview :=
  stratifiedSample CONFIG_STRATA reviews total_target

/-- The maximal `votes_up` occurring in a list (`0` for the empty list). -/
def maxVotes (l : List SteamReview) : ℕ :=
  l.foldr (fun r acc => max r.votes_up acc) 0

/-! ### Correctness of the executable weight comparison -/

lemma pow_le_pow_iff_mul_log_le (a b : ℤ) (n1 n2 : ℕ) (ha : 0 < a) (hb : 0 < b)
    (h1 : 2 ≤ n1) (h2 : 2 ≤ n2) :
    n1 ^ a.toNat ≤ n2 ^ b.toNat ↔
      (a : ℝ) * Real.log n1 ≤ (b : ℝ) * Real.log n2 := by
  have hn1 : (0:ℝ) < (n1:ℝ) := by positivity
  have hn2 : (0:ℝ) < (n2:ℝ) := by positivity
  have e1 : (a : ℝ) * Real.log n1 = Real.log ((n1:ℝ) ^ a.toNat) := by
    rw [Real.log_pow]
    congr 1
    exact_mod_cast (Int.toNat_of_nonneg ha.le).symm
  have e2 : (b : ℝ) * Real.log n2 = Real.log ((n2:ℝ) ^ b.toNat) := by
    rw [Real.log_pow]
    congr 1
    exact_mod_cast (Int.toNat_of_nonneg hb.le).symm
  rw [e1, e2, Real.log_le_log_iff (by positivity) (by positivity)]
  constructor
  · intro h
    exact_mod_cast h
  · intro h
    exact_mod_cast h

lemma logWeightLe_iff (m1 m2 : ℤ) (n1 n2 : ℕ) (h1 : 1 ≤ n1) (h2 : 1 ≤ n2) :
    logWeightLe m1 n1 m2 n2 = true ↔
      (m1 : ℝ) * Real.log n1 ≤ (m2 : ℝ) * Real.log n2 := by
  unfold logWeightLe
  split_ifs with hA hB hC
  · -- the left side is zero
    have e1 : (m1 : ℝ) * Real.log n1 = 0 := by
      rcases hA with h | h
      · simp [h]
      · have : n1 = 1 := le_antisymm h h1
        simp [this]
    rw [decide_eq_true_eq, e1]
    constructor
    · rintro (hm2 | hn2)
      · exact mul_nonneg (by exact_mod_cast hm2) (Real.log_natCast_nonneg n2)
      · have : n2 = 1 := le_antisymm hn2 h2
        simp [this]
    · intro h
      by_contra hc
      push_neg at hc
      obtain ⟨hm2, hn2⟩ := hc
      have hl : (0:ℝ) < Real.log n2 := Real.log_pos (by exact_mod_cast hn2)
      have hm2R : (m2 : ℝ) < 0 := by exact_mod_cast hm2
      nlinarith
  · -- the right side is zero, the left side is not
    push_neg at hA
    obtain ⟨hm1, hn1⟩ := hA
    have hl : (0:ℝ) < Real.log n1 := Real.log_pos (by exact_mod_cast hn1)
    have e2 : (m2 : ℝ) * Real.log n2 = 0 := by
      rcases hB with h | h
      · simp [h]
      · have : n2 = 1 := le_antisymm h h2
        simp [this]
    rw [decide_eq_true_eq, e2]
    constructor
    · intro h
      have : (m1 : ℝ) < 0 := by exact_mod_cast h
      nlinarith
    · intro h
      rcases lt_trichotomy m1 0 with hlt | hz | hgt
      · exact hlt
      · exact absurd hz hm1
      · exfalso
        have : (0:ℝ) < (m1 : ℝ) := by exact_mod_cast hgt
        nlinarith
  · -- the left side is negative
    push_neg at hA hB
    obtain ⟨hm1, hn1⟩ := hA
    obtain ⟨hm2, hn2⟩ := hB
    have hl1 : (0:ℝ) < Real.log n1 := Real.log_pos (by exact_mod_cast hn1)
    have hl2 : (0:ℝ) < Real.log n2 := Real.log_pos (by exact_mod_cast hn2)
    have hm1R : (m1 : ℝ) < 0 := by exact_mod_cast hC
    rw [decide_eq_true_eq]
    constructor
    · rintro (hpos | hpow)
      · have : (0:ℝ) < (m2 : ℝ) := by exact_mod_cast hpos
        nlinarith
      · rcases lt_trichotomy m2 0 with hlt | hz | hgt
        · have := (pow_le_pow_iff_mul_log_le (-m2) (-m1) n2 n1 (by omega) (by omega)
            hn2 hn1).mp hpow
          push_cast at this
          nlinarith
        · exact absurd hz hm2
        · have : (0:ℝ) < (m2:ℝ) := by exact_mod_cast hgt
          nlinarith
    · intro h
      rcases lt_trichotomy m2 0 with hlt | hz | hgt
      · right
        rw [pow_le_pow_iff_mul_log_le (-m2) (-m1) n2 n1 (by omega) (by omega) hn2 hn1]
        push_cast
        nlinarith
      · exact absurd hz hm2
      · exact Or.inl hgt
  · -- the left side is positive
    push_neg at hA hB hC
    obtain ⟨hm1, hn1⟩ := hA
    obtain ⟨hm2, hn2⟩ := hB
    have hm1p : 0 < m1 := lt_of_le_of_ne hC (Ne.symm hm1)
    have hl1 : (0:ℝ) < Real.log n1 := Real.log_pos (by exact_mod_cast hn1)
    have hl2 : (0:ℝ) < Real.log n2 := Real.log_pos (by exact_mod_cast hn2)
    have hm1R : (0:ℝ) < (m1 : ℝ) := by exact_mod_cast hm1p
    rw [decide_eq_true_eq]
    constructor
    · rintro ⟨hpos, hpow⟩
      exact (pow_le_pow_iff_mul_log_le m1 m2 n1 n2 hm1p hpos hn1 hn2).mp hpow
    · intro h
      have hm2p : 0 < m2 := by
        rcases lt_trichotomy m2 0 with hlt | hz | hgt
        · exfalso
          have : (m2 : ℝ) < 0 := by exact_mod_cast hlt
          nlinarith
        · exact absurd hz hm2
        · exact hgt
      exact ⟨hm2p, (pow_le_pow_iff_mul_log_le m1 m2 n1 n2 hm1p hm2p hn1 hn2).mpr h⟩

lemma rat_num_cast_eq (q : ℚ) : ((q.num : ℝ)) = (q : ℝ) * (q.den : ℝ) := by
  rw [Rat.cast_def]
  field_simp

/-- The executable comparison `weightLe` decides the real comparison of the
derived weights exactly. -/
lemma weightLe_iff (a b : SteamReview) :
    weightLe a b = true ↔ a.weight ≤ b.weight := by
  have hda : (0:ℝ) < (a.hours_played.den : ℝ) := by
    exact_mod_cast a.hours_played.den_pos
  have hdb : (0:ℝ) < (b.hours_played.den : ℝ) := by
    exact_mod_cast b.hours_played.den_pos
  have hlog : ∀ r : SteamReview,
      Real.log ((r.votes_up : ℝ) + 1) = Real.log ((r.votes_up + 1 : ℕ) : ℝ) := by
    intro r
    congr 1
    push_cast
    ring
  rw [weightLe,
    logWeightLe_iff _ _ _ _ (Nat.le_add_left 1 a.votes_up) (Nat.le_add_left 1 b.votes_up),
    SteamReview.weight, SteamReview.weight, hlog a, hlog b]
  push_cast
  rw [rat_num_cast_eq a.hours_played, rat_num_cast_eq b.hours_played]
  constructor
  · intro h
    have h3 : ((a.hours_played : ℝ) * Real.log ((a.votes_up : ℝ) + 1))
          * ((a.hours_played.den : ℝ) * (b.hours_played.den : ℝ))
        ≤ ((b.hours_played : ℝ) * Real.log ((b.votes_up : ℝ) + 1))
          * ((a.hours_played.den : ℝ) * (b.hours_played.den : ℝ)) := by
      linarith [h]
    exact (mul_le_mul_right (mul_pos hda hdb)).mp h3
  · intro h
    have h3 := (mul_le_mul_right (mul_pos hda hdb)).mpr h
    linarith [h3]

/-- Relation `wge a b` holds exactly when `weight b ≤ weight a`: `sortByWeightDesc` is
the stable descending sort by the real-valued derived weight. -/
lemma wge_iff (a b : SteamReview) : wge a b ↔ b.weight ≤ a.weight := by
  rw [wge, weightLe_iff]

instance : IsTotal SteamReview wge :=
  ⟨fun a b => by
    rw [wge_iff, wge_iff]
    exact le_total b.weight a.weight⟩

instance : IsTrans SteamReview wge :=
  ⟨fun a b c hab hbc => by
    rw [wge_iff] at hab hbc ⊢
    exact le_trans hbc hab⟩

instance : IsTotal SteamReview votesGe :=
  ⟨fun a b => le_total b.votes_up a.votes_up⟩

instance : IsTrans SteamReview votesGe :=
  ⟨fun _ _ _ hab hbc => le_trans hbc hab⟩

/-! ### Stratified sampler lemmas -/

/-- Quota `stratTarget` is `max(1, floor(total_target * pct))` for a non-negative
share, exactly as written in the source. -/
lemma stratTarget_eq_floor (N : ℕ) (s : Stratum) (h : 0 ≤ s.pct) :
    stratTarget N s = max 1 (Int.toNat ⌊(N : ℚ) * s.pct⌋) := by
  have hnum : 0 ≤ s.pct.num := Rat.num_nonneg.mpr h
  have hprod : (N : ℚ) * s.pct = (((N : ℤ) * s.pct.num : ℤ) : ℚ) / ((s.pct.den : ℕ) : ℚ) := by
    conv_lhs => rw [← Rat.num_div_den s.pct]
    push_cast
    ring
  unfold stratTarget
  rw [hprod, Rat.floor_intCast_div_natCast]
  congr 1
  obtain ⟨t, ht⟩ : ∃ t : ℕ, (N : ℤ) * s.pct.num = (t : ℤ) :=
    ⟨((N : ℤ) * s.pct.num).toNat, (Int.toNat_of_nonneg (by positivity)).symm⟩
  rw [ht, ← Int.natCast_div, Int.toNat_natCast, Int.toNat_natCast]

lemma length_segsFrom (strata : List Stratum) (rs : List SteamReview) (N : ℕ) :
    ∀ (l : List Stratum) (i : ℕ),
      (segsFrom strata rs N i l).length ≤ (l.map (stratTarget N)).sum
  | [], _ => by simp [segsFrom]
  | s :: rest, i => by
      simp only [segsFrom, List.length_append, List.map_cons, List.sum_cons]
      have h1 : ((bucket strata rs i).take (stratTarget N s)).length ≤ stratTarget N s := by
        simp [List.length_take]
      have h2 := length_segsFrom strata rs N rest (i + 1)
      omega

lemma mem_bucket_iff {strata : List Stratum} {rs : List SteamReview} {i : ℕ}
    {r : SteamReview} :
    r ∈ bucket strata rs i ↔ r ∈ rs ∧ assignedIdx strata r = some i := by
  simp [bucket, List.mem_filter]

lemma filter_take_bucket (strata : List Stratum) (rs : List SteamReview)
    (i j n : ℕ) :
    ((bucket strata rs j).take n).filter (fun r => assignedIdx strata r == some i)
      = if j = i then (bucket strata rs j).take n else [] := by
  split_ifs with hji
  · subst hji
    apply List.filter_eq_self.mpr
    intro r hr
    have hb := (mem_bucket_iff.mp (List.take_subset _ _ hr)).2
    simp [hb]
  · apply List.filter_eq_nil_iff.mpr
    intro r hr
    have hb := (mem_bucket_iff.mp (List.take_subset _ _ hr)).2
    simp [hb]
    exact fun h => hji h

/-- The output of the sampler, filtered to the reviews assigned to stratum `i`,
is exactly the `stratTarget`-prefix of bucket `i` (for the concrete four-strata
configuration). -/
lemma getStratifiedSample_filter (rs : List SteamReview) (N : ℕ) (i : ℕ)
    (hi : i < CONFIG_STRATA.length) :
    (getStratifiedSample rs N).filter
        (fun r => assignedIdx CONFIG_STRATA r == some i)
      = (bucket CONFIG_STRATA rs i).take
          (stratTarget N (CONFIG_STRATA.get ⟨i, hi⟩)) := by
  have hlen : CONFIG_STRATA.length = 4 := by decide
  rw [hlen] at hi
  have expand :
      getStratifiedSample rs N
        = (bucket CONFIG_STRATA rs 0).take (stratTarget N (CONFIG_STRATA.get ⟨0, by decide⟩))
          ++ ((bucket CONFIG_STRATA rs 1).take (stratTarget N (CONFIG_STRATA.get ⟨1, by decide⟩))
          ++ ((bucket CONFIG_STRATA rs 2).take (stratTarget N (CONFIG_STRATA.get ⟨2, by decide⟩))
          ++ ((bucket CONFIG_STRATA rs 3).take (stratTarget N (CONFIG_STRATA.get ⟨3, by decide⟩))
          ++ []))) := by
    rfl
  rw [expand]
  simp only [List.filter_append, filter_take_bucket, List.filter_nil]
  interval_cases i <;> simp

lemma interleave_nil_right (l : List SteamReview) : interleave l [] = [] := by
  cases l <;> rfl

lemma interleave_nil_left (l : List SteamReview) : interleave [] l = [] := by
  cases l <;> rfl

lemma config_pct_nonneg : ∀ s ∈ CONFIG_STRATA, 0 ≤ s.pct := by decide

/-! ### Claim theorems for the stratified sampler -/

/-- C1, counterexample: with target `N = 1` and one review in each of the four
strata, `_get_stratified_sample` returns 4 reviews, so its output is not "at
most `N` reviews in total". -/
theorem c1_counterexample :
    ¬ ((getStratifiedSample
        [⟨"r1", "t", true, 5, 0, 0, false⟩, ⟨"r2", "t", true, 50, 0, 0, false⟩,
         ⟨"r3", "t", true, 200, 0, 0, false⟩, ⟨"r4", "t", true, 600, 0, 0, false⟩]
        1).length ≤ 1) := by
  decide

/-- C1 (amended): `_get_stratified_sample` returns at most
`max N (number of strata)` reviews; the bound `N` alone fails because the
per-stratum minimum of one review can push small targets up to one review per
stratum. -/
theorem c1_sample_length_le_max_target_strata
    (reviews : List SteamReview) (N : ℕ) :
    (getStratifiedSample reviews N).length ≤ max N CONFIG_STRATA.length := by
  have h := length_segsFrom CONFIG_STRATA reviews N CONFIG_STRATA 0
  have hlen : CONFIG_STRATA.length = 4 := by decide
  rw [hlen]
  refine le_trans h ?_
  simp only [CONFIG_STRATA, List.map_cons, List.map_nil, List.sum_cons,
    List.sum_nil, stratTarget]
  have e1 : (mkRat 1 5).num = 1 := by decide
  have e2 : (mkRat 2 5).num = 2 := by decide
  have e3 : (mkRat 3 10).num = 3 := by decide
  have e4 : (mkRat 1 10).num = 1 := by decide
  have d1 : (mkRat 1 5).den = 5 := by decide
  have d2 : (mkRat 2 5).den = 5 := by decide
  have d3 : (mkRat 3 10).den = 10 := by decide
  have d4 : (mkRat 1 10).den = 10 := by decide
  rw [e1, e2, e3, e4, d1, d2, d3, d4]
  omega

/-- C2, counterexample: an input sorted by descending `votes_up` whose sampler
output is not sorted by descending `votes_up` as a flat sequence - the
Beginner-stratum segment (5 votes) precedes the Hardcore-stratum segment
(10 votes). -/
theorem c2_counterexample :
    [(⟨"a", "t", true, 600, 10, 0, false⟩ : SteamReview),
     ⟨"b", "t", true, 5, 5, 0, false⟩].Pairwise votesGe
      ∧ ¬ (getStratifiedSample
            [⟨"a", "t", true, 600, 10, 0, false⟩,
             ⟨"b", "t", true, 5, 5, 0, false⟩] 10).Pairwise votesGe := by
  constructor <;> decide

/-- C2 (amended): for an input sorted by descending `votes_up`, the sampler
output is sorted by descending `votes_up` within each stratum segment (the
order carried over from the pre-sampling sort); the flat sequence as a whole is
grouped by stratum and need not be globally sorted. -/
theorem c2_sample_sorted_within_stratum
    (reviews : List SteamReview) (N : ℕ)
    (hsorted : reviews.Pairwise votesGe) (i : ℕ)
    (hi : i < CONFIG_STRATA.length) :
    ((getStratifiedSample reviews N).filter
        (fun r => assignedIdx CONFIG_STRATA r == some i)).Pairwise votesGe := by
  rw [getStratifiedSample_filter reviews N i hi]
  exact List.Pairwise.sublist (List.take_sublist _ _) (hsorted.filter _)

/-- C2 witness: the amended theorem applied to a concrete sorted input. -/
theorem c2_witness :
    ([(⟨"a", "t", true, 600, 10, 0, false⟩ : SteamReview),
      ⟨"b", "t", true, 5, 5, 0, false⟩].Pairwise votesGe ∧ 0 < CONFIG_STRATA.length)
      ∧ ((getStratifiedSample
            [⟨"a", "t", true, 600, 10, 0, false⟩,
             ⟨"b", "t", true, 5, 5, 0, false⟩] 10).filter
          (fun r => assignedIdx CONFIG_STRATA r == some 0)).Pairwise votesGe :=
  ⟨⟨by decide, by decide⟩,
    c2_sample_sorted_within_stratum _ 10 (by decide) 0 (by decide)⟩

/-- C6: the sampler takes from stratum `i`'s bucket exactly the first
`max 1 (floor (N * share))` entries (hence exactly
`min (bucket size) (max 1 (floor (N * share)))` reviews): never more than the
quota, and at least one from every non-empty bucket. -/
theorem c6_per_stratum_quota (reviews : List SteamReview) (N : ℕ) (i : ℕ)
    (hi : i < CONFIG_STRATA.length) :
    (getStratifiedSample reviews N).filter
        (fun r => assignedIdx CONFIG_STRATA r == some i)
      = (bucket CONFIG_STRATA reviews i).take
          (max 1 (Int.toNat ⌊(N : ℚ) * (CONFIG_STRATA.get ⟨i, hi⟩).pct⌋))
    ∧ ((getStratifiedSample reviews N).filter
          (fun r => assignedIdx CONFIG_STRATA r == some i)).length
        = min (max 1 (Int.toNat ⌊(N : ℚ) * (CONFIG_STRATA.get ⟨i, hi⟩).pct⌋))
            (bucket CONFIG_STRATA reviews i).length
    ∧ (bucket CONFIG_STRATA reviews i ≠ [] →
        (getStratifiedSample reviews N).filter
            (fun r => assignedIdx CONFIG_STRATA r == some i) ≠ []) := by
  have hq : 0 ≤ (CONFIG_STRATA.get ⟨i, hi⟩).pct :=
    config_pct_nonneg _ (List.get_mem CONFIG_STRATA i hi)
  have hfilter := getStratifiedSample_filter reviews N i hi
  rw [stratTarget_eq_floor N _ hq] at hfilter
  refine ⟨hfilter, ?_, ?_⟩
  · rw [hfilter, List.length_take]
  · intro hne
    rw [hfilter]
    simp only [ne_eq, List.take_eq_nil_iff]
    push_neg
    exact ⟨by omega, hne⟩

/-- C6 witness: the quota theorem applied to a one-review input in the
Beginner stratum with target `0`. -/
theorem c6_witness :
    (0 : ℕ) < CONFIG_STRATA.length
      ∧ ((getStratifiedSample [⟨"b", "t", true, 5, 5, 0, false⟩] 0).filter
            (fun r => assignedIdx CONFIG_STRATA r == some 0)
          = (bucket CONFIG_STRATA [⟨"b", "t", true, 5, 5, 0, false⟩] 0).take
              (max 1 (Int.toNat ⌊(0 : ℚ) * ((CONFIG_STRATA.get ⟨0, by decide⟩).pct)⌋))
          ∧ ((getStratifiedSample [⟨"b", "t", true, 5, 5, 0, false⟩] 0).filter
                (fun r => assignedIdx CONFIG_STRATA r == some 0)).length
              = min (max 1 (Int.toNat ⌊(0 : ℚ) * ((CONFIG_STRATA.get ⟨0, by decide⟩).pct)⌋))
                  (bucket CONFIG_STRATA [⟨"b", "t", true, 5, 5, 0, false⟩] 0).length
          ∧ (bucket CONFIG_STRATA [⟨"b", "t", true, 5, 5, 0, false⟩] 0 ≠ [] →
              (getStratifiedSample [⟨"b", "t", true, 5, 5, 0, false⟩] 0).filter
                  (fun r => assignedIdx CONFIG_STRATA r == some 0) ≠ [])) :=
  ⟨by decide, c6_per_stratum_quota [⟨"b", "t", true, 5, 5, 0, false⟩] 0 0 (by decide)⟩

/-- C9: both stages are total functions of the embedding; on the empty input
the sampler returns the empty list, the guarded `[0]` access yields `None` for
empty negatives, and the arranger with empty negatives returns exactly the
positives in descending-weight order. -/
theorem c9_totality_empty_cases (N : ℕ) (pos : List SteamReview) :
    getStratifiedSample [] N = []
      ∧ mostHelpfulNeg (sortByWeightDesc []) = none
      ∧ sortAndArrangeReviews pos [] = sortByWeightDesc pos := by
  refine ⟨?_, rfl, ?_⟩
  · simp [getStratifiedSample, stratifiedSample, CONFIG_STRATA, segsFrom, bucket]
  · unfold sortAndArrangeReviews
    simp [mainNegatives, excludeIds, tailNegatives, vetNegCandidates, anchorList,
      mostHelpfulNeg, sortByVotesDesc, sortByWeightDesc, interleave_nil_right]

/-! ### Arranger lemmas -/

lemma interleave_append_perm : ∀ (a b : List SteamReview),
    List.Perm (interleave a b ++ (a.drop b.length ++ b.drop a.length)) (a ++ b)
  | [], b => by simp [interleave_nil_left]
  | x :: xs, [] => by simp [interleave_nil_right]
  | x :: xs, y :: ys => by
      simp only [interleave, List.length_cons, List.drop_succ_cons,
        List.cons_append]
      refine List.Perm.cons x ?_
      refine (List.Perm.cons y (interleave_append_perm xs ys)).trans ?_
      exact List.perm_middle.symm

lemma tailNegatives_sublist (ns : List SteamReview) :
    List.Sublist (tailNegatives ns) ns := by
  have hvet : List.Sublist (vetNegCandidates ns) ns := List.filter_sublist ns
  have htake : List.Sublist
      ((vetNegCandidates ns).take (min TAIL_VETERANS_COUNT (vetNegCandidates ns).length))
      ns := (List.take_sublist _ _).trans hvet
  simp only [tailNegatives]
  split_ifs with hempty
  · exact List.nil_sublist ns
  · cases hm : mostHelpfulNeg ns with
    | none => exact htake
    | some m =>
      dsimp only
      split_ifs with hmem
      · exact (List.erase_sublist m _).trans htake
      · exact htake

lemma mostHelpfulNeg_mem {ns : List SteamReview} {m : SteamReview}
    (h : mostHelpfulNeg ns = some m) : m ∈ ns := by
  have hmem : m ∈ sortByVotesDesc ns :=
    List.mem_of_mem_head? (by rw [mostHelpfulNeg] at h; simp [h])
  exact (List.perm_insertionSort votesGe ns).subset hmem

lemma mhn_not_mem_tail {ns : List SteamReview} {m : SteamReview}
    (hnd : ns.Nodup) (h : mostHelpfulNeg ns = some m) :
    m ∉ tailNegatives ns := by
  have hvetnd : ((vetNegCandidates ns).take
      (min TAIL_VETERANS_COUNT (vetNegCandidates ns).length)).Nodup :=
    List.Sublist.nodup ((List.take_sublist _ _).trans (List.filter_sublist ns)) hnd
  simp only [tailNegatives, h]
  split_ifs with hempty hmem
  · simp
  · intro hx
    exact ((hvetnd.mem_erase_iff.mp hx).1 rfl)
  · exact hmem

lemma mem_tail_or_anchor_of_id_mem {ns : List SteamReview} {r : SteamReview}
    (hnd : (ns.map (fun x => x.review_id)).Nodup) (hr : r ∈ ns)
    (hid : r.review_id ∈ excludeIds ns) :
    r ∈ tailNegatives ns ++ anchorList ns := by
  rw [excludeIds] at hid
  rcases List.mem_append.mp hid with htail | hanch
  · obtain ⟨t, htmem, htid⟩ := List.mem_map.mp htail
    have ht : t ∈ ns := (tailNegatives_sublist ns).subset htmem
    have : t = r := List.inj_on_of_nodup_map hnd ht hr htid
    subst this
    exact List.mem_append.mpr (Or.inl htmem)
  · cases hm : mostHelpfulNeg ns with
    | none => rw [hm] at hanch; simp at hanch
    | some m =>
      rw [hm] at hanch
      simp only [List.mem_singleton] at hanch
      have hmns : m ∈ ns := mostHelpfulNeg_mem hm
      have hmr : m = r := List.inj_on_of_nodup_map hnd hmns hr hanch.symm
      refine List.mem_append.mpr (Or.inr ?_)
      rw [← hmr]
      simp [anchorList, hm]

lemma id_mem_excludeIds_of_mem {ns : List SteamReview} {r : SteamReview}
    (hr : r ∈ tailNegatives ns ++ anchorList ns) :
    r.review_id ∈ excludeIds ns := by
  rcases List.mem_append.mp hr with htail | hanch
  · rw [excludeIds]
    exact List.mem_append.mpr (Or.inl (List.mem_map_of_mem _ htail))
  · cases hm : mostHelpfulNeg ns with
    | none => simp only [anchorList, hm] at hanch; simp at hanch
    | some m =>
      simp only [anchorList, hm, List.mem_singleton] at hanch
      subst hanch
      rw [excludeIds, hm]
      exact List.mem_append.mpr (Or.inr (by simp))

/-- The main negatives, the tail veterans and the anchor together are a
permutation of the weight-sorted negatives, provided the negative ids are
distinct. -/
lemma exclude_partition {ns : List SteamReview}
    (hnd : (ns.map (fun r => r.review_id)).Nodup) :
    List.Perm (mainNegatives ns ++ (tailNegatives ns ++ anchorList ns)) ns := by
  have hnsd : ns.Nodup := List.Nodup.of_map _ hnd
  have hperm := List.filter_append_perm
    (fun r => decide (¬ r.review_id ∈ excludeIds ns)) ns
  have hsuff : List.Perm
      (ns.filter (fun r => !(decide (¬ r.review_id ∈ excludeIds ns))))
      (tailNegatives ns ++ anchorList ns) := by
    have hfnd : (ns.filter
        (fun r => !(decide (¬ r.review_id ∈ excludeIds ns)))).Nodup :=
      List.Sublist.nodup (List.filter_sublist ns) hnsd
    have htand : (tailNegatives ns ++ anchorList ns).Nodup := by
      rw [List.nodup_append]
      refine ⟨List.Sublist.nodup (tailNegatives_sublist ns) hnsd, ?_, ?_⟩
      · cases hm : mostHelpfulNeg ns with
        | none => simp [anchorList, hm]
        | some m => simp [anchorList, hm]
      · intro x hx hxa
        cases hm : mostHelpfulNeg ns with
        | none => simp only [anchorList, hm] at hxa; simp at hxa
        | some m =>
          simp only [anchorList, hm, List.mem_singleton] at hxa
          subst hxa
          exact mhn_not_mem_tail hnsd hm hx
    refine List.Subperm.antisymm (hfnd.subperm ?_) (htand.subperm ?_)
    · intro r hrmem
      have := List.mem_filter.mp hrmem
      obtain ⟨hrns, hcond⟩ := this
      simp only [Bool.not_eq_true', decide_eq_false_iff_not, not_not] at hcond
      exact mem_tail_or_anchor_of_id_mem hnd hrns hcond
    · intro r hrmem
      refine List.mem_filter.mpr ⟨?_, ?_⟩
      · rcases List.mem_append.mp hrmem with ht | ha
        · exact (tailNegatives_sublist ns).subset ht
        · cases hm : mostHelpfulNeg ns with
          | none => simp only [anchorList, hm] at ha; simp at ha
          | some m =>
            simp only [anchorList, hm, List.mem_singleton] at ha
            subst ha
            exact mostHelpfulNeg_mem hm
      · have := id_mem_excludeIds_of_mem hrmem
        simp [this]
  exact ((List.Perm.append_left (mainNegatives ns) hsuff).symm.trans hperm)

/-- C3: when all `review_id` values are pairwise distinct, the output of
`sort_and_arrange_reviews` is a permutation of `positives ++ negatives`:
each input review appears exactly once, for any combination of
empty and non-empty inputs. -/
theorem c3_each_review_exactly_once (pos neg : List SteamReview)
    (hids : ((pos ++ neg).map (fun r => r.review_id)).Nodup) :
    List.Perm (sortAndArrangeReviews pos neg) (pos ++ neg) := by
  have hnegmap : (neg.map (fun r => r.review_id)).Nodup := by
    rw [List.map_append] at hids
    exact List.Nodup.of_append_right hids
  have hnsmap :
      ((sortByWeightDesc neg).map (fun r => r.review_id)).Nodup :=
    ((List.perm_insertionSort wge neg).map
      (fun r => r.review_id)).nodup_iff.mpr hnegmap
  have h2 := exclude_partition hnsmap
  unfold sortAndArrangeReviews
  have hassoc :
      interleave (sortByWeightDesc pos) (mainNegatives (sortByWeightDesc neg))
          ++ (sortByWeightDesc pos).drop
              (mainNegatives (sortByWeightDesc neg)).length
          ++ (mainNegatives (sortByWeightDesc neg)).drop
              (sortByWeightDesc pos).length
          ++ tailNegatives (sortByWeightDesc neg)
          ++ anchorList (sortByWeightDesc neg)
        = (interleave (sortByWeightDesc pos)
              (mainNegatives (sortByWeightDesc neg))
            ++ ((sortByWeightDesc pos).drop
                  (mainNegatives (sortByWeightDesc neg)).length
                ++ (mainNegatives (sortByWeightDesc neg)).drop
                    (sortByWeightDesc pos).length))
          ++ (tailNegatives (sortByWeightDesc neg)
              ++ anchorList (sortByWeightDesc neg)) := by
    simp [List.append_assoc]
  rw [hassoc]
  refine ((interleave_append_perm _ _).append_right _).trans ?_
  rw [List.append_assoc]
  refine (List.Perm.append_left _ h2).trans ?_
  exact List.Perm.append (List.perm_insertionSort wge pos)
    (List.perm_insertionSort wge neg)

/-- C3 witness: the permutation theorem applied to a concrete pair of
one-element inputs with distinct ids. -/
theorem c3_witness :
    ((([⟨"p", "t", true, 3, 1, 0, false⟩]
        ++ [⟨"n", "t", false, 4, 2, 0, false⟩] : List SteamReview)).map
        (fun r => r.review_id)).Nodup
      ∧ List.Perm
          (sortAndArrangeReviews [⟨"p", "t", true, 3, 1, 0, false⟩]
            [⟨"n", "t", false, 4, 2, 0, false⟩])
          ([⟨"p", "t", true, 3, 1, 0, false⟩]
            ++ [⟨"n", "t", false, 4, 2, 0, false⟩]) :=
  ⟨by decide,
    c3_each_review_exactly_once [⟨"p", "t", true, 3, 1, 0, false⟩]
      [⟨"n", "t", false, 4, 2, 0, false⟩] (by decide)⟩

/-! ### The most helpful negative -/

lemma votes_le_maxVotes {r : SteamReview} : ∀ {l : List SteamReview},
    r ∈ l → r.votes_up ≤ maxVotes l
  | a :: t, h => by
      rcases List.mem_cons.mp h with rfl | ht
      · exact Nat.le_max_left _ _
      · exact le_trans (votes_le_maxVotes ht) (Nat.le_max_right _ _)

lemma maxVotes_le {l : List SteamReview} {n : ℕ} :
    maxVotes l ≤ n ↔ ∀ r ∈ l, r.votes_up ≤ n := by
  induction l with
  | nil => simp [maxVotes]
  | cons a t ih =>
      rw [show maxVotes (a :: t) = max a.votes_up (maxVotes t) from rfl]
      simp [Nat.max_le, ih]

lemma maxVotes_eq_of_perm {l l' : List SteamReview} (h : List.Perm l l') :
    maxVotes l = maxVotes l' :=
  le_antisymm (maxVotes_le.mpr fun _ hr => votes_le_maxVotes (h.subset hr))
    (maxVotes_le.mpr fun _ hr => votes_le_maxVotes (h.symm.subset hr))

/-- The head of the stable descending sort by `votes_up` is the first element
of the input attaining the maximal vote count. -/
lemma head_sortByVotesDesc : ∀ l : List SteamReview,
    (sortByVotesDesc l).head?
      = l.find? (fun r => decide (maxVotes l ≤ r.votes_up))
  | [] => rfl
  | a :: t => by
      rw [sortByVotesDesc, List.insertionSort]
      cases hs : List.insertionSort votesGe t with
      | nil =>
        have ht : t = [] := by
          have hp := List.perm_insertionSort votesGe t
          rw [hs] at hp
          exact (hp.symm.eq_nil)
        subst ht
        simp [List.orderedInsert, maxVotes]
      | cons h rest =>
        have hmem : h ∈ t := by
          have hp := List.perm_insertionSort votesGe t
          rw [hs] at hp
          exact hp.subset (List.mem_cons_self h rest)
        have hfind := head_sortByVotesDesc t
        rw [sortByVotesDesc, hs] at hfind
        simp only [List.head?_cons] at hfind
        have hph := List.find?_some hfind.symm
        simp only [decide_eq_true_eq] at hph
        have hmax : h.votes_up = maxVotes t :=
          le_antisymm (votes_le_maxVotes hmem) hph
        rw [List.orderedInsert]
        by_cases hab : votesGe a h
        · rw [if_pos hab]
          have hm : maxVotes (a :: t) = a.votes_up := by
            rw [show maxVotes (a :: t) = max a.votes_up (maxVotes t) from rfl,
              ← hmax]
            exact Nat.max_eq_left hab
          rw [List.find?_cons_of_pos _ (by simp [hm])]
          rfl
        · rw [if_neg hab]
          have hav : a.votes_up < h.votes_up := by
            unfold votesGe at hab
            omega
          have hm : maxVotes (a :: t) = maxVotes t := by
            rw [show maxVotes (a :: t) = max a.votes_up (maxVotes t) from rfl,
              ← hmax]
            exact Nat.max_eq_right hav.le
          rw [List.find?_cons_of_neg _ (by simp [hm, ← hmax]; omega), hm,
            List.head?_cons]
          exact hfind

/-- C4: with non-empty negatives, the last element of the arranged output is
the single negative with the globally maximal `votes_up`; among ties it is the
first in the descending-weight order (the first match when scanning the
weight-sorted negatives). -/
theorem c4_last_is_most_helpful_negative (pos neg : List SteamReview)
    (hne : neg ≠ []) :
    ∃ m, (sortAndArrangeReviews pos neg).getLast? = some m
      ∧ m ∈ neg
      ∧ (∀ r ∈ neg, r.votes_up ≤ m.votes_up)
      ∧ (sortByWeightDesc neg).find?
          (fun r => decide (m.votes_up ≤ r.votes_up)) = some m := by
  have hperm : List.Perm (sortByWeightDesc neg) neg :=
    List.perm_insertionSort wge neg
  have hns : sortByWeightDesc neg ≠ [] := by
    intro h
    rw [h] at hperm
    exact hne hperm.symm.eq_nil
  obtain ⟨m, hm⟩ : ∃ m, mostHelpfulNeg (sortByWeightDesc neg) = some m := by
    rw [mostHelpfulNeg]
    cases hsv : sortByVotesDesc (sortByWeightDesc neg) with
    | nil =>
        have hp : List.Perm (sortByVotesDesc (sortByWeightDesc neg))
            (sortByWeightDesc neg) :=
          List.perm_insertionSort votesGe (sortByWeightDesc neg)
        rw [hsv] at hp
        exact absurd hp.symm.eq_nil hns
    | cons x xs => exact ⟨x, rfl⟩
  have hfind := head_sortByVotesDesc (sortByWeightDesc neg)
  rw [mostHelpfulNeg] at hm
  rw [hm] at hfind
  have hmem_ns : m ∈ sortByWeightDesc neg :=
    List.mem_of_find?_eq_some hfind.symm
  have hmem : m ∈ neg := hperm.subset hmem_ns
  have h1 := List.find?_some hfind.symm
  simp only [decide_eq_true_eq] at h1
  have hmv : maxVotes (sortByWeightDesc neg) = m.votes_up :=
    le_antisymm h1 (votes_le_maxVotes hmem_ns)
  refine ⟨m, ?_, hmem, ?_, ?_⟩
  · unfold sortAndArrangeReviews
    rw [show anchorList (sortByWeightDesc neg) = [m] by
      simp [anchorList, mostHelpfulNeg, hm]]
    exact List.getLast?_concat _
  · intro r hr
    have h2 : r.votes_up ≤ maxVotes (sortByWeightDesc neg) :=
      votes_le_maxVotes (hperm.symm.subset hr)
    omega
  · rw [← hmv]
    exact hfind.symm

/-- C4 witness: the theorem applied to a single concrete negative. -/
theorem c4_witness :
    ([(⟨"n", "t", false, 10, 3, 0, false⟩ : SteamReview)] ≠ ([] : List SteamReview))
      ∧ ∃ m, (sortAndArrangeReviews []
              [⟨"n", "t", false, 10, 3, 0, false⟩]).getLast? = some m
          ∧ m ∈ [(⟨"n", "t", false, 10, 3, 0, false⟩ : SteamReview)]
          ∧ (∀ r ∈ [(⟨"n", "t", false, 10, 3, 0, false⟩ : SteamReview)],
              r.votes_up ≤ m.votes_up)
          ∧ (sortByWeightDesc [⟨"n", "t", false, 10, 3, 0, false⟩]).find?
              (fun r => decide (m.votes_up ≤ r.votes_up)) = some m :=
  ⟨by decide,
    c4_last_is_most_helpful_negative [] [⟨"n", "t", false, 10, 3, 0, false⟩]
      (by decide)⟩

/-! ### Stability of the weight sort -/

lemma insertionSort_wge_filter_stable (p : SteamReview → Bool)
    (hp : ∀ a b, p a = true → p b = true → wge a b) :
    ∀ l : List SteamReview,
      (List.insertionSort wge l).filter p = l.filter p
  | [] => rfl
  | a :: t => by
      rw [List.insertionSort, List.orderedInsert_eq_take_drop,
        List.filter_append]
      have hsplit : ((List.insertionSort wge t).takeWhile
            (fun b => decide (¬ wge a b))).filter p
          ++ ((List.insertionSort wge t).dropWhile
            (fun b => decide (¬ wge a b))).filter p
          = (List.insertionSort wge t).filter p := by
        rw [← List.filter_append, List.takeWhile_append_dropWhile]
      by_cases hpa : p a = true
      · have htake : ((List.insertionSort wge t).takeWhile
            (fun b => decide (¬ wge a b))).filter p = [] := by
          apply List.filter_eq_nil_iff.mpr
          intro x hx hpx
          have hcond := List.mem_takeWhile_imp hx
          simp only [decide_eq_true_eq] at hcond
          exact hcond (hp a x hpa hpx)
        rw [htake, List.nil_append] at hsplit
        rw [htake, List.nil_append]
        simp only [List.filter_cons, hpa, if_true]
        rw [hsplit, insertionSort_wge_filter_stable p hp t]
      · have hpa' : p a = false := by simpa using hpa
        simp only [List.filter_cons, hpa']
        simp only [Bool.false_eq_true, if_false]
        rw [hsplit, insertionSort_wge_filter_stable p hp t]

/-- C7: the weight-ranking step returns a sequence sorted non-increasingly by
`weight = hours_played * ln(votes_up + 1)`; weight-ties keep their original
relative order (the filter to any weight-equivalence class is unchanged), and
applying the ranking twice equals applying it once. -/
theorem c7_weighted_ranker_properties (l : List SteamReview) :
    List.Pairwise (fun a b => b.weight ≤ a.weight) (sortByWeightDesc l)
      ∧ sortByWeightDesc (sortByWeightDesc l) = sortByWeightDesc l
      ∧ ∀ c : SteamReview,
          (sortByWeightDesc l).filter (fun r => weightLe r c && weightLe c r)
            = l.filter (fun r => weightLe r c && weightLe c r) := by
  refine ⟨?_, ?_, ?_⟩
  · exact (List.sorted_insertionSort wge l).imp (fun hab => (wge_iff _ _).mp hab)
  · exact List.Sorted.insertionSort_eq (List.sorted_insertionSort wge l)
  · intro c
    apply insertionSort_wge_filter_stable
    intro a b hpa hpb
    simp only [Bool.and_eq_true] at hpa hpb
    have e1 : a.weight = c.weight :=
      le_antisymm ((weightLe_iff a c).mp hpa.1) ((weightLe_iff c a).mp hpa.2)
    have e2 : b.weight = c.weight :=
      le_antisymm ((weightLe_iff b c).mp hpb.1) ((weightLe_iff c b).mp hpb.2)
    rw [wge_iff]
    exact le_of_eq (e2.trans e1.symm)

/-! ### Position of the tail veterans and the positive subsequence -/

lemma main_part_length (a b : List SteamReview) :
    (interleave a b ++ (a.drop b.length ++ b.drop a.length)).length
      = a.length + b.length := by
  rw [(interleave_append_perm a b).length_eq, List.length_append]

lemma arrange_eq_main_append (pos neg : List SteamReview) :
    sortAndArrangeReviews pos neg
      = (interleave (sortByWeightDesc pos)
            (mainNegatives (sortByWeightDesc neg))
          ++ ((sortByWeightDesc pos).drop
                (mainNegatives (sortByWeightDesc neg)).length
              ++ (mainNegatives (sortByWeightDesc neg)).drop
                  (sortByWeightDesc pos).length))
        ++ (tailNegatives (sortByWeightDesc neg)
            ++ anchorList (sortByWeightDesc neg)) := by
  unfold sortAndArrangeReviews
  simp [List.append_assoc]

lemma take_main_part (pos neg : List SteamReview) :
    (sortAndArrangeReviews pos neg).take
        (pos.length + (mainNegatives (sortByWeightDesc neg)).length)
      = interleave (sortByWeightDesc pos)
            (mainNegatives (sortByWeightDesc neg))
          ++ ((sortByWeightDesc pos).drop
                (mainNegatives (sortByWeightDesc neg)).length
              ++ (mainNegatives (sortByWeightDesc neg)).drop
                  (sortByWeightDesc pos).length) := by
  rw [arrange_eq_main_append]
  apply List.take_left'
  have hlp : (sortByWeightDesc pos).length = pos.length :=
    (show List.Perm (sortByWeightDesc pos) pos from
      List.perm_insertionSort wge pos).length_eq
  rw [main_part_length, hlp]

lemma pos_neg_id_disjoint {pos neg : List SteamReview}
    (hids : ((pos ++ neg).map (fun r => r.review_id)).Nodup) :
    ∀ r, r ∈ pos → r ∈ neg → False := by
  rw [List.map_append, List.nodup_append] at hids
  intro r hp hn
  exact hids.2.2 (List.mem_map_of_mem _ hp) (List.mem_map_of_mem _ hn)

/-- C8, counterexample: when the same review occurs in both inputs, an element
of `tail_veterans` does appear before position
`len(positives) + len(main_negatives)` (three positions: `[r, r, s]` with the
tail veteran `r` at position 0 and the boundary at 1). -/
theorem c8_counterexample :
    (⟨"r", "t", true, 600, 0, 0, false⟩ : SteamReview)
        ∈ tailNegatives (sortByWeightDesc
            [⟨"r", "t", true, 600, 0, 0, false⟩, ⟨"s", "t", false, 0, 5, 0, false⟩])
      ∧ (⟨"r", "t", true, 600, 0, 0, false⟩ : SteamReview)
          ∈ (sortAndArrangeReviews [⟨"r", "t", true, 600, 0, 0, false⟩]
              [⟨"r", "t", true, 600, 0, 0, false⟩,
               ⟨"s", "t", false, 0, 5, 0, false⟩]).take
            ([(⟨"r", "t", true, 600, 0, 0, false⟩ : SteamReview)].length
              + (mainNegatives (sortByWeightDesc
                  [⟨"r", "t", true, 600, 0, 0, false⟩,
                   ⟨"s", "t", false, 0, 5, 0, false⟩])).length) := by
  constructor <;> decide

/-- C8 (amended): when all `review_id` values are pairwise distinct, no element
of the tail-veterans set occurs among the first
`len(positives) + len(main_negatives)` positions of the arranged output. -/
theorem c8_tail_not_before_main_part (pos neg : List SteamReview)
    (hids : ((pos ++ neg).map (fun r => r.review_id)).Nodup) :
    ∀ r ∈ tailNegatives (sortByWeightDesc neg),
      r ∉ (sortAndArrangeReviews pos neg).take
            (pos.length + (mainNegatives (sortByWeightDesc neg)).length) := by
  intro r hr hmem
  have hperm_p : List.Perm (sortByWeightDesc pos) pos :=
    List.perm_insertionSort wge pos
  have hperm_n : List.Perm (sortByWeightDesc neg) neg :=
    List.perm_insertionSort wge neg
  rw [take_main_part] at hmem
  have hr_or := List.mem_append.mp
    ((interleave_append_perm (sortByWeightDesc pos)
      (mainNegatives (sortByWeightDesc neg))).subset hmem)
  have hrneg : r ∈ neg := hperm_n.subset ((tailNegatives_sublist _).subset hr)
  rcases hr_or with hp | hn
  · exact pos_neg_id_disjoint hids r (hperm_p.subset hp) hrneg
  · have hcond := (List.mem_filter.mp hn).2
    simp only [decide_eq_true_eq] at hcond
    exact hcond (id_mem_excludeIds_of_mem (List.mem_append.mpr (Or.inl hr)))

/-- C8 witness: the amended theorem applied to a concrete input with two
veteran negatives and distinct ids. -/
theorem c8_witness :
    ((([⟨"p", "t", true, 3, 1, 0, false⟩]
        ++ [⟨"a", "t", false, 600, 1, 0, false⟩, ⟨"b", "t", false, 700, 0, 0, false⟩]
        : List SteamReview)).map (fun r => r.review_id)).Nodup
      ∧ ∀ r ∈ tailNegatives (sortByWeightDesc
            [⟨"a", "t", false, 600, 1, 0, false⟩,
             ⟨"b", "t", false, 700, 0, 0, false⟩]),
          r ∉ (sortAndArrangeReviews [⟨"p", "t", true, 3, 1, 0, false⟩]
                [⟨"a", "t", false, 600, 1, 0, false⟩,
                 ⟨"b", "t", false, 700, 0, 0, false⟩]).take
              ([(⟨"p", "t", true, 3, 1, 0, false⟩ : SteamReview)].length
                + (mainNegatives (sortByWeightDesc
                    [⟨"a", "t", false, 600, 1, 0, false⟩,
                     ⟨"b", "t", false, 700, 0, 0, false⟩])).length) :=
  ⟨by decide,
    c8_tail_not_before_main_part [⟨"p", "t", true, 3, 1, 0, false⟩]
      [⟨"a", "t", false, 600, 1, 0, false⟩, ⟨"b", "t", false, 700, 0, 0, false⟩]
      (by decide)⟩

lemma filter_interleave_part (p : SteamReview → Bool) :
    ∀ (a b : List SteamReview), (∀ x ∈ a, p x = true) → (∀ y ∈ b, p y = false) →
      (interleave a b ++ (a.drop b.length ++ b.drop a.length)).filter p = a
  | [], b, _, hb => by
      simp only [interleave_nil_left, List.length_nil, List.drop_zero,
        List.drop_nil, List.nil_append, List.append_nil]
      exact List.filter_eq_nil_iff.mpr (fun y hy => by simp [hb y hy])
  | x :: xs, [], ha, _ => by
      simp only [interleave_nil_right, List.length_nil, List.drop_zero,
        List.drop_nil, List.nil_append, List.append_nil]
      exact List.filter_eq_self.mpr ha
  | x :: xs, y :: ys, ha, hb => by
      have hx := ha x (List.mem_cons_self x xs)
      have hy := hb y (List.mem_cons_self y ys)
      simp only [interleave, List.length_cons, List.drop_succ_cons,
        List.cons_append, List.filter_cons, hx, hy, if_true, if_false]
      congr 1
      exact filter_interleave_part p xs ys
        (fun z hz => ha z (List.mem_cons_of_mem x hz))
        (fun z hz => hb z (List.mem_cons_of_mem y hz))

/-- C10, counterexample: with the same review in both inputs, the subsequence
of the output consisting of positive-input reviews is `[r, r]`, not the
weight-sorted positives `[r]`. -/
theorem c10_counterexample :
    ¬ ((sortAndArrangeReviews [⟨"r", "t", true, 600, 0, 0, false⟩]
          [⟨"r", "t", true, 600, 0, 0, false⟩]).filter
        (fun x => decide (x ∈ [(⟨"r", "t", true, 600, 0, 0, false⟩ : SteamReview)]))
      = sortByWeightDesc [⟨"r", "t", true, 600, 0, 0, false⟩]) := by
  decide

/-- C10 (amended): when all `review_id` values are pairwise distinct, the
subsequence of the arranged output consisting of positive-input reviews is
exactly the positives sorted by descending weight: every positive appears
exactly once, never relegated to the tail and never reordered, regardless of
the negatives, the veteran threshold, or the anchor selection. -/
theorem c10_positive_subsequence_eq (pos neg : List SteamReview)
    (hids : ((pos ++ neg).map (fun r => r.review_id)).Nodup) :
    (sortAndArrangeReviews pos neg).filter (fun r => decide (r ∈ pos))
      = sortByWeightDesc pos := by
  have hperm_p : List.Perm (sortByWeightDesc pos) pos :=
    List.perm_insertionSort wge pos
  have hperm_n : List.Perm (sortByWeightDesc neg) neg :=
    List.perm_insertionSort wge neg
  have hposT : ∀ x ∈ sortByWeightDesc pos, (decide (x ∈ pos) : Bool) = true :=
    fun x hx => decide_eq_true (hperm_p.subset hx)
  have hnegF : ∀ y ∈ sortByWeightDesc neg, (decide (y ∈ pos) : Bool) = false :=
    fun y hy => decide_eq_false
      (fun hc => pos_neg_id_disjoint hids y hc (hperm_n.subset hy))
  have hmainF : ∀ y ∈ mainNegatives (sortByWeightDesc neg),
      (decide (y ∈ pos) : Bool) = false :=
    fun y hy => hnegF y ((List.filter_sublist _).subset hy)
  have hanchorF : ∀ y ∈ anchorList (sortByWeightDesc neg),
      ¬ ((decide (y ∈ pos) : Bool) = true) := by
    intro y hy
    cases hm : mostHelpfulNeg (sortByWeightDesc neg) with
    | none => simp only [anchorList, hm] at hy; simp at hy
    | some m =>
        simp only [anchorList, hm, List.mem_singleton] at hy
        subst hy
        simp [hnegF y (mostHelpfulNeg_mem hm)]
  rw [arrange_eq_main_append, List.filter_append,
    filter_interleave_part _ _ _ hposT hmainF, List.filter_append]
  rw [List.filter_eq_nil_iff.mpr
    (fun y hy => by simp [hnegF y ((tailNegatives_sublist _).subset hy)])]
  rw [List.filter_eq_nil_iff.mpr hanchorF, List.append_nil, List.append_nil]

/-- C10 witness: the amended theorem applied to distinct one-element inputs. -/
theorem c10_witness :
    ((([⟨"p", "t", true, 3, 1, 0, false⟩]
        ++ [⟨"n", "t", false, 10, 2, 0, false⟩] : List SteamReview)).map
        (fun r => r.review_id)).Nodup
      ∧ (sortAndArrangeReviews [⟨"p", "t", true, 3, 1, 0, false⟩]
            [⟨"n", "t", false, 10, 2, 0, false⟩]).filter
          (fun r => decide (r ∈ [(⟨"p", "t", true, 3, 1, 0, false⟩ : SteamReview)]))
        = sortByWeightDesc [⟨"p", "t", true, 3, 1, 0, false⟩] :=
  ⟨by decide,
    c10_positive_subsequence_eq [⟨"p", "t", true, 3, 1, 0, false⟩]
      [⟨"n", "t", false, 10, 2, 0, false⟩] (by decide)⟩

/-- C5: the concrete scenario of the spec.  The negatives carry exactly the
stated data (`N1` with 600 hours and 50 votes, `N2` with 10 hours and
5 votes); the positives realise the stated weight ordering `w(P1) > w(P2)`
with 9 and 5 hours at one helpful vote each, so their weights are `9 ln 2`
and `5 ln 2`.  The arranger produces exactly `[P1, N2, P2, N1]`: `N1` is the
only veteran candidate and also the top-helpful negative, so the tail-veteran
set becomes empty and `N1` is appended last after the interleave `[P1, N2]`
and the positive remainder `[P2]`. -/
theorem c5_concrete_scenario :
    sortAndArrangeReviews
      [⟨"p1", "t", true, 9, 1, 0, false⟩, ⟨"p2", "t", true, 5, 1, 0, false⟩]
      [⟨"n1", "t", false, 600, 50, 0, false⟩, ⟨"n2", "t", false, 10, 5, 0, false⟩]
      = [⟨"p1", "t", true, 9, 1, 0, false⟩, ⟨"n2", "t", false, 10, 5, 0, false⟩,
         ⟨"p2", "t", true, 5, 1, 0, false⟩, ⟨"n1", "t", false, 600, 50, 0, false⟩] := by
  decide
